import Mathlib

/-!
Verification of the chuingho-server recommendation core against its
natural-language specification.

The Go source is shallowly embedded: float32/float64 arithmetic is
modelled with exact rationals (the properties at stake are orderings,
scalings and structural facts that the floating-point code computes the
same way on the concrete inputs used), Go maps are modelled as
association lists in iteration order (Go map iteration order is
unspecified, so every list order is a realizable execution), and the
process-wide random source is passed in as an explicit stream of draws.
-/

namespace Chuingho

open List

/-- A vector is a list of rational components (Go: []float32). -/
abbrev Vec := List ℚ

/-- Inner product, mirroring FaissDB.cosineSimilarity which sums a[i]*b[i]. -/
def dot (a b : Vec) : ℚ := (List.zipWith (· * ·) a b).sum

/-- Sum of squared components: the value the Go code calls norm
(FaissDB.normalizeVector accumulates norm += v*v and never takes a
square root). -/
def normSq (v : Vec) : ℚ := (v.map (fun x => x * x)).sum

/-- Embedding of FaissDB.normalizeVector: when the sum of squares is not
zero, every component is multiplied by 1/(norm*norm) where norm is the
sum of squares, exactly as the source does. -/
def normalizeVector (v : Vec) : Vec :=
  let norm := normSq v
  if norm = 0 then v
  else v.map (fun x => x * (1 / (norm * norm)))

/-- A record of the vector store (Go vector.VectorRecord); metadata is
the attribute map, modelled as an association list of strings. -/
structure VectorRecord where
  id : String
  vector : Vec
  metadata : List (String × String)
deriving DecidableEq, Repr

/-- The in-memory map of FaissDB.vectors, in iteration order. -/
abbrev Store := List (String × VectorRecord)

/-- Map insert-or-replace (Go: f.vectors[record.ID] = record). -/
def upsert (m : Store) (r : VectorRecord) : Store :=
  match m with
  | [] => [(r.id, r)]
  | (k, v) :: rest => if k = r.id then (k, r) :: rest else (k, v) :: upsert rest r

/-- Result of an AddVectors call: the final in-memory state, the error
if any, and whether saveIndex was reached. -/
structure AddResult where
  state : Store
  error : Option String
  saved : Bool
deriving Repr

/-- A record with its vector passed through normalizeVector, as
AddVectors stores it. -/
def normalizeRecord (r : VectorRecord) : VectorRecord :=
  { r with vector := normalizeVector r.vector }

/-- Embedding of FaissDB.AddVectors: records are processed in order; a
record whose vector length differs from the configured dimension aborts
the loop with an error, leaving the records already inserted in place
and skipping the snapshot save; otherwise every record is normalized,
inserted, and the index is saved. -/
def addVectors (dim : ℕ) (st : Store) : List VectorRecord → AddResult
  | [] => { state := st, error := none, saved := true }
  | r :: rest =>
    if r.vector.length = dim then
      addVectors dim (upsert st (normalizeRecord r)) rest
    else
      { state := st, error := some "dimension mismatch", saved := false }

/-- State after inserting a list of (dimension-correct) records. -/
def insertAll (st : Store) (rs : List VectorRecord) : Store :=
  rs.foldl (fun s r => upsert s (normalizeRecord r)) st

lemma normalizeRecord_id (r : VectorRecord) : (normalizeRecord r).id = r.id := rfl

lemma lookup_upsert_self (m : Store) (r : VectorRecord) :
    (upsert m r).lookup r.id = some r := by
  induction m with
  | nil => simp [upsert, List.lookup]
  | cons p rest ih =>
    obtain ⟨k, v⟩ := p
    by_cases h : k = r.id
    · simp [upsert, h, List.lookup]
    · have hb : (r.id == k) = false :=
        beq_eq_false_iff_ne.mpr (fun hc => h hc.symm)
      simp [upsert, h, List.lookup, hb, ih]

lemma lookup_upsert_ne (m : Store) (r : VectorRecord) (id : String)
    (h : r.id ≠ id) : (upsert m r).lookup id = m.lookup id := by
  have hb : (id == r.id) = false := beq_eq_false_iff_ne.mpr (fun hc => h hc.symm)
  induction m with
  | nil => simp [upsert, List.lookup, hb]
  | cons p rest ih =>
    obtain ⟨k, v⟩ := p
    by_cases hk : k = r.id
    · subst hk
      simp [upsert, List.lookup, hb]
    · simp only [upsert, if_neg hk, List.lookup, ih]

lemma lookup_insertAll_ne (rs : List VectorRecord) (st : Store) (id : String)
    (h : ∀ r ∈ rs, r.id ≠ id) : (insertAll st rs).lookup id = st.lookup id := by
  induction rs generalizing st with
  | nil => rfl
  | cons r rest ih =>
    have hr : r.id ≠ id := h r (by simp)
    have htail : (insertAll (upsert st (normalizeRecord r)) rest).lookup id
        = (upsert st (normalizeRecord r)).lookup id :=
      ih (upsert st (normalizeRecord r)) (fun x hx => h x (by simp [hx]))
    calc (insertAll st (r :: rest)).lookup id
        = (insertAll (upsert st (normalizeRecord r)) rest).lookup id := rfl
      _ = (upsert st (normalizeRecord r)).lookup id := htail
      _ = st.lookup id := lookup_upsert_ne st (normalizeRecord r) id hr

lemma addVectors_ok_prefix (dim : ℕ) (st : Store) (good : List VectorRecord)
    (hgood : ∀ r ∈ good, r.vector.length = dim) (rest : List VectorRecord) :
    addVectors dim st (good ++ rest) = addVectors dim (insertAll st good) rest := by
  induction good generalizing st with
  | nil => rfl
  | cons g gs ih =>
    have hg : g.vector.length = dim := hgood g (by simp)
    have hgs : ∀ r ∈ gs, r.vector.length = dim := fun r hr => hgood r (by simp [hr])
    simp only [List.cons_append, addVectors, hg, if_pos]
    exact ih (upsert st (normalizeRecord g)) hgs

lemma lookup_insertAll_mem (gs : List VectorRecord) (st : Store) (r : VectorRecord)
    (hmem : r ∈ gs) (hnodup : (gs.map VectorRecord.id).Nodup) :
    (insertAll st gs).lookup r.id = some (normalizeRecord r) := by
  induction gs generalizing st with
  | nil => cases hmem
  | cons g rest ih =>
    have hnd : (rest.map VectorRecord.id).Nodup := (List.nodup_cons.mp hnodup).2
    rcases List.mem_cons.mp hmem with hg | hrest
    · subst hg
      have hni : ∀ x ∈ rest, x.id ≠ r.id := by
        intro x hx hcon
        exact (List.nodup_cons.mp hnodup).1 (hcon ▸ List.mem_map_of_mem VectorRecord.id hx)
      calc (insertAll st (r :: rest)).lookup r.id
          = (insertAll (upsert st (normalizeRecord r)) rest).lookup r.id := rfl
        _ = (upsert st (normalizeRecord r)).lookup r.id := lookup_insertAll_ne rest _ r.id hni
        _ = some (normalizeRecord r) := by
            simpa [normalizeRecord_id] using lookup_upsert_self st (normalizeRecord r)
    · exact ih (upsert st (normalizeRecord g)) hrest hnd

/-- C10: AddVectors is not atomic: a dimension mismatch mid-batch
returns an error, yet all dimension-correct records before the first
mismatching one are already inserted (normalized) and remain in the
in-memory index, and the snapshot save is skipped. -/
theorem c10_partial_insert (dim : ℕ) (st : Store)
    (good : List VectorRecord) (bad : VectorRecord) (rest : List VectorRecord)
    (hgood : ∀ r ∈ good, r.vector.length = dim)
    (hbad : bad.vector.length ≠ dim)
    (hnodup : (good.map VectorRecord.id).Nodup) :
    (addVectors dim st (good ++ bad :: rest)).error.isSome
    ∧ (addVectors dim st (good ++ bad :: rest)).saved = false
    ∧ ∀ r ∈ good,
        (addVectors dim st (good ++ bad :: rest)).state.lookup r.id
          = some (normalizeRecord r) := by
  have hsplit := addVectors_ok_prefix dim st good hgood (bad :: rest)
  have hstep : addVectors dim (insertAll st good) (bad :: rest)
      = { state := insertAll st good, error := some "dimension mismatch", saved := false } := by
    simp [addVectors, hbad]
  rw [hsplit, hstep]
  refine ⟨by simp, by simp, ?_⟩
  intro r hr
  exact lookup_insertAll_mem good st r hr hnodup

/-- C1: the normalization bug. Adding the one-dimensional vector (2)
stores the vector (1/8): its squared L2 norm is 1/64, strictly below
(1 - 10⁻⁴)², hence its L2 norm is below 1 - 10⁻⁴ and the stored vector
violates the spec bound (the norm-squared of it minus 1) small. The routine divides by
the square of the sum of squares instead of by the square root, even
though its own comment promises the reciprocal of the square root. -/
theorem c1_normalize_bug :
    (addVectors 1 [] [⟨"p", [2], []⟩]).state.lookup "p"
      = some ⟨"p", [(1 : ℚ)/8], []⟩
    ∧ normSq [(1 : ℚ)/8] = 1/64
    ∧ ((1 : ℚ)/64) < (1 - 1/10000)^2 := by
  refine ⟨?_, by norm_num [normSq], by norm_num⟩
  simp [addVectors, upsert, normalizeRecord, normalizeVector, normSq, List.lookup]
  norm_num

/-- Phrase shown for a record: the metadata entry under key "phrase"
when present, else the identifier (FaissDB.Search lines 109-115). -/
def phraseOf (r : VectorRecord) : String :=
  match r.metadata.lookup "phrase" with
  | some p => p
  | none => r.id

/-- A scored phrase: the (phrase, score) pairs Search returns and the
(phrase, similarity) pairs the generator manipulates. -/
abbrev Scored := String × ℚ

/-- Descending order on scores, the comparator used by every sort in the
repository (score i greater than score j). -/
def descOrder (a b : Scored) : Prop := b.2 ≤ a.2

/-- One outer-loop iteration of the double-loop sort used by
sortBySimilarity and filterRelevantWords (and a realizable execution of
sort.Slice in FaissDB.Search): the running slot value x is compared with
each later element and swapped whenever the later score is strictly
larger; returns the final slot value (a maximum) and the modified
remainder. -/
def passMax (x : Scored) : List Scored → Scored × List Scored
  | [] => (x, [])
  | y :: ys =>
    if x.2 < y.2 then
      let p := passMax y ys
      (p.1, x :: p.2)
    else
      let p := passMax x ys
      (p.1, y :: p.2)

/-- The outer loop of the double-loop descending sort, fueled by the
list length. -/
def exchangeSortGo : ℕ → List Scored → List Scored
  | 0, l => l
  | _ + 1, [] => []
  | fuel + 1, x :: xs =>
    let p := passMax x xs
    p.1 :: exchangeSortGo fuel p.2

/-- The descending score sort of the repository (double loop comparing
scores, swapping when the left one is strictly smaller). -/
def exchangeSort (l : List Scored) : List Scored := exchangeSortGo l.length l

lemma passMax_length (x : Scored) (l : List Scored) :
    (passMax x l).2.length = l.length := by
  induction l generalizing x with
  | nil => rfl
  | cons y ys ih =>
    by_cases h : x.2 < y.2 <;> simp [passMax, h, ih]

lemma passMax_perm (x : Scored) (l : List Scored) :
    (passMax x l).1 :: (passMax x l).2 ~ x :: l := by
  induction l generalizing x with
  | nil => rfl
  | cons y ys ih =>
    by_cases h : x.2 < y.2
    · simp only [passMax, if_pos h]
      calc (passMax y ys).1 :: x :: (passMax y ys).2
          ~ x :: (passMax y ys).1 :: (passMax y ys).2 := List.Perm.swap x _ _
        _ ~ x :: y :: ys := (ih y).cons x
    · simp only [passMax, if_neg h]
      calc (passMax x ys).1 :: y :: (passMax x ys).2
          ~ y :: (passMax x ys).1 :: (passMax x ys).2 := List.Perm.swap y _ _
        _ ~ y :: x :: ys := (ih x).cons y
        _ ~ x :: y :: ys := List.Perm.swap x y ys

lemma passMax_le (x : Scored) (l : List Scored) :
    x.2 ≤ (passMax x l).1.2 ∧ ∀ z ∈ (passMax x l).2, z.2 ≤ (passMax x l).1.2 := by
  induction l generalizing x with
  | nil => exact ⟨le_refl _, by simp [passMax]⟩
  | cons y ys ih =>
    by_cases h : x.2 < y.2
    · simp only [passMax, if_pos h]
      refine ⟨le_trans (le_of_lt h) (ih y).1, ?_⟩
      intro z hz
      rcases List.mem_cons.mp hz with hzx | hzr
      · exact hzx ▸ le_trans (le_of_lt h) (ih y).1
      · exact (ih y).2 z hzr
    · simp only [passMax, if_neg h]
      refine ⟨(ih x).1, ?_⟩
      intro z hz
      rcases List.mem_cons.mp hz with hzy | hzr
      · exact hzy ▸ le_trans (le_of_not_lt h) (ih x).1
      · exact (ih x).2 z hzr

lemma exchangeSortGo_perm (fuel : ℕ) (l : List Scored) (h : l.length ≤ fuel) :
    exchangeSortGo fuel l ~ l := by
  induction fuel generalizing l with
  | zero => exact List.Perm.refl l
  | succ fuel ih =>
    cases l with
    | nil => exact List.Perm.refl []
    | cons x xs =>
      have hlen : (passMax x xs).2.length ≤ fuel := by
        rw [passMax_length]
        exact Nat.le_of_succ_le_succ (by simpa using h)
      calc (passMax x xs).1 :: exchangeSortGo fuel (passMax x xs).2
          ~ (passMax x xs).1 :: (passMax x xs).2 := (ih _ hlen).cons _
        _ ~ x :: xs := passMax_perm x xs

lemma exchangeSortGo_sorted (fuel : ℕ) (l : List Scored) (h : l.length ≤ fuel) :
    List.Sorted descOrder (exchangeSortGo fuel l) := by
  induction fuel generalizing l with
  | zero =>
    have : l = [] := List.length_eq_zero.mp (Nat.le_zero.mp h)
    simp [this, exchangeSortGo]
  | succ fuel ih =>
    cases l with
    | nil => simp [exchangeSortGo]
    | cons x xs =>
      have hlen : (passMax x xs).2.length ≤ fuel := by
        rw [passMax_length]
        exact Nat.le_of_succ_le_succ (by simpa using h)
      refine List.sorted_cons.mpr ⟨?_, ih _ hlen⟩
      intro b hb
      have hbmem : b ∈ (passMax x xs).2 := (exchangeSortGo_perm fuel _ hlen).mem_iff.mp hb
      exact (passMax_le x xs).2 b hbmem

lemma exchangeSort_perm (l : List Scored) : exchangeSort l ~ l :=
  exchangeSortGo_perm l.length l (le_refl _)

lemma exchangeSort_sorted (l : List Scored) : List.Sorted descOrder (exchangeSort l) :=
  exchangeSortGo_sorted l.length l (le_refl _)

/-- Embedding of FaissDB.Search: reject a query of the wrong dimension,
normalize the query with normalizeVector, score every stored record by
inner product, sort descending by score, and return the first
min(topK, number of records) entries. The records argument is the map
in iteration order (Go map iteration order is unspecified, so any order
is a realizable execution); no identifier comparison occurs anywhere. -/
def faissSearch (dim : ℕ) (records : List VectorRecord) (query : Vec) (topK : ℕ) :
    Except String (List Scored) :=
  if query.length = dim then
    let nq := normalizeVector query
    let sims := records.map (fun r => (phraseOf r, dot nq r.vector))
    Except.ok ((exchangeSort sims).take (min topK sims.length))
  else
    Except.error "query dimension mismatch"

/-- Two records with identical vectors, listed in an iteration order
that puts identifier "b" before "a". -/
def c5recs : List VectorRecord := [⟨"b", [1], []⟩, ⟨"a", [1], []⟩]

/-- C5 counterexample: Search does not break score ties by identifier
lexicographic order. With two records of identical vectors arriving in
iteration order (b, a) — realizable since Go map iteration order is
arbitrary — the tied results come back as (b, a), while the claim
requires (a, b) since the String "a" precedes "b". -/
theorem c5_counterexample :
    faissSearch 1 c5recs [1] 2 = Except.ok [("b", 1), ("a", 1)]
    ∧ ¬ ((("b" : String), (1 : ℚ)) = (("a" : String), (1 : ℚ)))
    ∧ ("a" : String) < "b" := by
  refine ⟨?_, by decide, by rw [String.lt_iff_toList_lt]; decide⟩
  simp [faissSearch, c5recs, phraseOf, dot, normalizeVector, normSq,
    exchangeSort, exchangeSortGo, passMax, List.lookup]

/-- C5 amended: for a query of the configured dimension, Search returns
the min(K, number of records) highest-score entries in descending score
order — every returned score is at least every omitted score — where the
score of a record is the inner product of its stored vector with the
normalizeVector image of the query; the order of tied entries follows
the map iteration and sort order, not identifier order. -/
theorem c5_amended (dim : ℕ) (records : List VectorRecord) (query : Vec) (topK : ℕ)
    (hq : query.length = dim) :
    ∃ out dropped : List Scored,
      faissSearch dim records query topK = Except.ok out
      ∧ out.length = min topK records.length
      ∧ List.Sorted descOrder out
      ∧ (out ++ dropped)
          ~ records.map (fun r => (phraseOf r, dot (normalizeVector query) r.vector))
      ∧ ∀ x ∈ out, ∀ y ∈ dropped, y.2 ≤ x.2 := by
  set sims := records.map (fun r => (phraseOf r, dot (normalizeVector query) r.vector)) with hsims
  refine ⟨(exchangeSort sims).take (min topK sims.length),
          (exchangeSort sims).drop (min topK sims.length), ?_, ?_, ?_, ?_, ?_⟩
  · simp [faissSearch, hq, hsims, List.length_map]
  · rw [List.length_take, (exchangeSort_perm sims).length_eq, Nat.min_assoc,
      Nat.min_self, hsims, List.length_map]
  · exact (exchangeSort_sorted sims).sublist (List.take_sublist _ _)
  · rw [List.take_append_drop]
    exact exchangeSort_perm sims
  · intro x hx y hy
    have hpw : List.Pairwise descOrder
        ((exchangeSort sims).take (min topK sims.length)
          ++ (exchangeSort sims).drop (min topK sims.length)) := by
      rw [List.take_append_drop]
      exact exchangeSort_sorted sims
    exact (List.pairwise_append.mp hpw).2.2 x hx y hy

/-- Witness for c5_amended at a concrete query and store. -/
theorem c5_amended_witness :
    ([(1 : ℚ)].length = 1)
    ∧ ∃ out dropped : List Scored,
        faissSearch 1 c5recs [1] 2 = Except.ok out
        ∧ out.length = min 2 c5recs.length
        ∧ List.Sorted descOrder out
        ∧ (out ++ dropped)
            ~ c5recs.map (fun r => (phraseOf r, dot (normalizeVector [1]) r.vector))
        ∧ ∀ x ∈ out, ∀ y ∈ dropped, y.2 ≤ x.2 :=
  ⟨rfl, c5_amended 1 c5recs [1] 2 rfl⟩

/-- Whitespace recognized by the tokenizer in
TitleService.calculateStringSimilarity (space, tab, newline). -/
def isSpaceChar (c : Char) : Bool := c = ' ' || c = '\t' || c = '\n'

/-- A token is its rune sequence (Go tokens are substrings; comparing
them is comparing their runes). -/
abbrev Token := List Char

/-- Tokenizer loop: accumulate the current token (reversed) and flush it
at whitespace, exactly as the rune loop in calculateStringSimilarity. -/
def tokenizeAux : List Char → List Char → List Token
  | [], cur => if cur.isEmpty then [] else [cur.reverse]
  | c :: cs, cur =>
    if isSpaceChar c then
      if cur.isEmpty then tokenizeAux cs []
      else cur.reverse :: tokenizeAux cs []
    else tokenizeAux cs (c :: cur)

/-- Split a string into whitespace-separated tokens. -/
def tokenize (s : String) : List Token := tokenizeAux s.data []

/-- Build the list of distinct tokens in order, as the Go code builds a
map of token keys. -/
def distinctTokens (ts : List Token) : List Token :=
  ts.foldl (fun acc t => if t ∈ acc then acc else acc ++ [t]) []

/-- The intersection and union counts of calculateStringSimilarity:
inter counts the distinct tokens of b present among the distinct tokens
of a, uni counts the union. -/
def jaccardParts (tA tB : List Token) : ℕ × ℕ :=
  (((distinctTokens tB).filter (fun t => decide (t ∈ distinctTokens tA))).length,
   (distinctTokens tA).length
     + ((distinctTokens tB).filter (fun t => decide (¬ t ∈ distinctTokens tA))).length)

/-- Token-set Jaccard as computed by calculateStringSimilarity; zero
when the union is empty. -/
def jaccardTS (tA tB : List Token) : ℚ :=
  if 0 < (jaccardParts tA tB).2 then
    ((jaccardParts tA tB).1 : ℚ) / ((jaccardParts tA tB).2 : ℚ)
  else 0

/-- Embedding of TitleService.calculateStringSimilarity: 1 for equal
strings, else token Jaccard, bumped up to 3/5 (0.6) when the first
tokens coincide. -/
def calculateStringSimilarity (a b : String) : ℚ :=
  if a = b then 1
  else
    match tokenize a, tokenize b with
    | x :: _, y :: _ =>
        if x = y then
          if jaccardTS (tokenize a) (tokenize b) < 3/5 then 3/5
          else jaccardTS (tokenize a) (tokenize b)
        else jaccardTS (tokenize a) (tokenize b)
    | _, _ => jaccardTS (tokenize a) (tokenize b)

/-- The running minimum similarity of a candidate to the selected list
(loop in TitleService.calculateDiversity, starting from 1.0). -/
def minSimTo (c : String) (selected : List Scored) : ℚ :=
  selected.foldl (fun m sel =>
    let s := calculateStringSimilarity c sel.1
    if s < m then s else m) 1

/-- Embedding of TitleService.calculateDiversity: 1 for an empty
selection, else one minus the minimum similarity to a selected phrase. -/
def calculateDiversity (c : String) (selected : List Scored) : ℚ :=
  if selected.isEmpty then 1 else 1 - minSimTo c selected

/-- The per-candidate total of TitleService.diversityRanking's inner
loop: relevance times 0.5 plus diversity times 0.5. -/
def mmrTotal (c : Scored) (selected : List Scored) : ℚ :=
  c.2 * (1/2) + calculateDiversity c.1 selected * (1/2)

/-- The inner argmax scan shared by TitleService.diversityRanking and
selectDiverseCombinations: walk the remaining candidates keeping the
first index whose total strictly exceeds the best so far. -/
def bestLoop (sc : Scored → List Scored → ℚ) (sel : List Scored) :
    List Scored → ℕ → ℕ → ℚ → ℕ
  | [], _, bIdx, _ => bIdx
  | c :: cs, i, bIdx, bScore =>
    if bScore < sc c sel then bestLoop sc sel cs (i + 1) i (sc c sel)
    else bestLoop sc sel cs (i + 1) bIdx bScore

/-- Index chosen by one iteration of the selection loop (bestIdx starts
at 0, bestScore at -1, as in both Go loops). -/
def bestIndex (sc : Scored → List Scored → ℚ) (sel : List Scored)
    (rem : List Scored) : ℕ :=
  bestLoop sc sel rem 0 0 (-1)

/-- The greedy selection loop: while fewer than topK are selected and
candidates remain, move the bestIndex candidate from remaining to
selected. Fuel counts the picks still to make. -/
def selectLoop (sc : Scored → List Scored → ℚ) : ℕ → List Scored → List Scored → List Scored
  | 0, sel, _ => sel
  | _ + 1, sel, [] => sel
  | fuel + 1, sel, c :: cs =>
    let b := bestIndex sc sel (c :: cs)
    selectLoop sc fuel (sel ++ [(c :: cs).getD b c]) ((c :: cs).eraseIdx b)

/-- Embedding of TitleService.diversityRanking: short inputs are
returned whole; otherwise the top element is selected first and the
loop fills up to topK picks using the 0.5/0.5 total. -/
def diversityRanking (results : List Scored) (topK : ℕ) : List String :=
  if results.length ≤ topK then results.map Prod.fst
  else
    match results with
    | [] => []
    | r :: rest => (selectLoop mmrTotal (topK - 1) [r] rest).map Prod.fst

lemma bestLoop_spec (sc : Scored → List Scored → ℚ) (sel : List Scored) :
    ∀ (cs : List Scored) (i bIdx : ℕ) (bScore : ℚ),
    (bestLoop sc sel cs i bIdx bScore = bIdx
      ∧ ∀ j (h : j < cs.length), sc (cs.get ⟨j, h⟩) sel ≤ bScore)
    ∨ (∃ j, ∃ h : j < cs.length,
        bestLoop sc sel cs i bIdx bScore = i + j
        ∧ bScore < sc (cs.get ⟨j, h⟩) sel
        ∧ (∀ k (hk : k < cs.length), sc (cs.get ⟨k, hk⟩) sel ≤ sc (cs.get ⟨j, h⟩) sel)
        ∧ (∀ k (hk : k < cs.length), k < j →
            sc (cs.get ⟨k, hk⟩) sel < sc (cs.get ⟨j, h⟩) sel)) := by
  intro cs
  induction cs with
  | nil =>
    intro i bIdx bScore
    left
    exact ⟨rfl, fun j h => absurd h (by simp)⟩
  | cons c cs ih =>
    intro i bIdx bScore
    by_cases hc : bScore < sc c sel
    · have hstep : bestLoop sc sel (c :: cs) i bIdx bScore
          = bestLoop sc sel cs (i + 1) i (sc c sel) := by
        simp [bestLoop, hc]
      rcases ih (i + 1) i (sc c sel) with ⟨heq, hall⟩ | ⟨j, hj, heq, hgt, hall, hstrict⟩
      · right
        refine ⟨0, by simp, by rw [hstep, heq, Nat.add_zero], hc, ?_, ?_⟩
        · intro k hk
          cases k with
          | zero => exact le_refl _
          | succ k => exact hall k (by simpa using hk)
        · intro k hk hklt
          exact absurd hklt (Nat.not_lt_zero k)
      · right
        refine ⟨j + 1, by simpa using hj, by rw [hstep, heq]; omega,
          lt_trans hc hgt, ?_, ?_⟩
        · intro k hk
          cases k with
          | zero => exact le_of_lt hgt
          | succ k => exact hall k (by simpa using hk)
        · intro k hk hklt
          cases k with
          | zero => exact hgt
          | succ k => exact hstrict k (by simpa using hk) (by omega)
    · have hstep : bestLoop sc sel (c :: cs) i bIdx bScore
          = bestLoop sc sel cs (i + 1) bIdx bScore := by
        simp [bestLoop, hc]
      rcases ih (i + 1) bIdx bScore with ⟨heq, hall⟩ | ⟨j, hj, heq, hgt, hall, hstrict⟩
      · left
        refine ⟨by rw [hstep, heq], ?_⟩
        intro j h
        cases j with
        | zero => exact le_of_not_lt hc
        | succ j => exact hall j (by simpa using h)
      · right
        refine ⟨j + 1, by simpa using hj, by rw [hstep, heq]; omega, hgt, ?_, ?_⟩
        · intro k hk
          cases k with
          | zero => exact le_trans (le_of_not_lt hc) (le_of_lt hgt)
          | succ k => exact hall k (by simpa using hk)
        · intro k hk hklt
          cases k with
          | zero => exact lt_of_le_of_lt (le_of_not_lt hc) hgt
          | succ k => exact hstrict k (by simpa using hk) (by omega)

lemma bestIndex_lt (sc : Scored → List Scored → ℚ) (sel : List Scored)
    (rem : List Scored) (hne : rem ≠ []) : bestIndex sc sel rem < rem.length := by
  rcases bestLoop_spec sc sel rem 0 0 (-1) with ⟨heq, _⟩ | ⟨j, hj, heq, _⟩
  · rw [bestIndex, heq]
    cases rem with
    | nil => exact absurd rfl hne
    | cons c cs => simp
  · rw [bestIndex, heq]
    simpa using hj

lemma bestIndex_spec (sc : Scored → List Scored → ℚ) (sel : List Scored)
    (rem : List Scored) (hne : rem ≠ [])
    (hlow : ∀ c ∈ rem, -1 < sc c sel) :
    ∃ h : bestIndex sc sel rem < rem.length,
      (∀ k (hk : k < rem.length),
        sc (rem.get ⟨k, hk⟩) sel ≤ sc (rem.get ⟨bestIndex sc sel rem, h⟩) sel)
      ∧ ∀ k (hk : k < rem.length), k < bestIndex sc sel rem →
          sc (rem.get ⟨k, hk⟩) sel < sc (rem.get ⟨bestIndex sc sel rem, h⟩) sel := by
  rcases bestLoop_spec sc sel rem 0 0 (-1) with ⟨heq, hall⟩ | ⟨j, hj, heq, hgt, hall, hstrict⟩
  · cases rem with
    | nil => exact absurd rfl hne
    | cons c cs =>
      exfalso
      have h0 : sc c sel ≤ -1 := by simpa using hall 0 (by simp)
      exact absurd (hlow c (by simp)) (not_lt.mpr h0)
  · have hb : bestIndex sc sel rem = j := by simpa [bestIndex] using heq
    refine ⟨by rw [hb]; exact hj, ?_, ?_⟩
    · intro k hk
      have := hall k hk
      simpa [hb] using this
    · intro k hk hklt
      have := hstrict k hk (by rwa [hb] at hklt)
      simpa [hb] using this

lemma getD_cons_eraseIdx_perm (d : Scored) :
    ∀ (l : List Scored) (b : ℕ), b < l.length → (l.getD b d) :: l.eraseIdx b ~ l := by
  intro l
  induction l with
  | nil => intro b hb; exact absurd hb (by simp)
  | cons x xs ih =>
    intro b hb
    cases b with
    | zero => simp [List.getD]
    | succ b =>
      have hb2 : b < xs.length := by simpa using hb
      calc (x :: xs).getD (b + 1) d :: (x :: xs).eraseIdx (b + 1)
          = xs.getD b d :: x :: xs.eraseIdx b := by simp [List.getD]
        _ ~ x :: xs.getD b d :: xs.eraseIdx b := List.Perm.swap x _ _
        _ ~ x :: xs := (ih b hb2).cons x

lemma selectLoop_prefix (sc : Scored → List Scored → ℚ) :
    ∀ (fuel : ℕ) (sel rem : List Scored), ∃ t, selectLoop sc fuel sel rem = sel ++ t := by
  intro fuel
  induction fuel with
  | zero => intro sel rem; exact ⟨[], by simp [selectLoop]⟩
  | succ fuel ih =>
    intro sel rem
    cases rem with
    | nil => exact ⟨[], by simp [selectLoop]⟩
    | cons c cs =>
      obtain ⟨t, ht⟩ := ih (sel ++ [(c :: cs).getD (bestIndex sc sel (c :: cs)) c])
        ((c :: cs).eraseIdx (bestIndex sc sel (c :: cs)))
      exact ⟨(c :: cs).getD (bestIndex sc sel (c :: cs)) c :: t, by
        simpa [selectLoop, List.append_assoc] using ht⟩

lemma selectLoop_length (sc : Scored → List Scored → ℚ) :
    ∀ (fuel : ℕ) (sel rem : List Scored),
      (selectLoop sc fuel sel rem).length = sel.length + min fuel rem.length := by
  intro fuel
  induction fuel with
  | zero => intro sel rem; simp [selectLoop]
  | succ fuel ih =>
    intro sel rem
    cases rem with
    | nil => simp [selectLoop]
    | cons c cs =>
      have hb : bestIndex sc sel (c :: cs) < (c :: cs).length :=
        bestIndex_lt sc sel (c :: cs) (by simp)
      have herase : ((c :: cs).eraseIdx (bestIndex sc sel (c :: cs))).length = cs.length := by
        rw [List.length_eraseIdx_of_lt hb]
        simp
      rw [selectLoop, ih, herase]
      simp [Nat.succ_min_succ]
      omega

lemma selectLoop_subperm (sc : Scored → List Scored → ℚ) :
    ∀ (fuel : ℕ) (sel rem : List Scored), selectLoop sc fuel sel rem <+~ sel ++ rem := by
  intro fuel
  induction fuel with
  | zero =>
    intro sel rem
    simpa [selectLoop] using (List.sublist_append_left sel rem).subperm
  | succ fuel ih =>
    intro sel rem
    cases rem with
    | nil => simpa [selectLoop] using (List.sublist_append_left sel []).subperm
    | cons c cs =>
      have hb : bestIndex sc sel (c :: cs) < (c :: cs).length :=
        bestIndex_lt sc sel (c :: cs) (by simp)
      have hperm : ((c :: cs).getD (bestIndex sc sel (c :: cs)) c)
          :: (c :: cs).eraseIdx (bestIndex sc sel (c :: cs)) ~ c :: cs :=
        getD_cons_eraseIdx_perm c (c :: cs) _ hb
      have hstep := ih (sel ++ [(c :: cs).getD (bestIndex sc sel (c :: cs)) c])
        ((c :: cs).eraseIdx (bestIndex sc sel (c :: cs)))
      have hre : (sel ++ [(c :: cs).getD (bestIndex sc sel (c :: cs)) c])
          ++ (c :: cs).eraseIdx (bestIndex sc sel (c :: cs)) ~ sel ++ (c :: cs) := by
        rw [List.append_assoc]
        exact List.Perm.append_left sel (by simpa using hperm)
      exact List.Subperm.trans hstep hre.subperm

lemma subperm_map_fst (l₁ l₂ : List Scored) (h : l₁ <+~ l₂) :
    l₁.map Prod.fst <+~ l₂.map Prod.fst := by
  obtain ⟨l, hp, hs⟩ := h
  exact ⟨l.map Prod.fst, hp.map Prod.fst, hs.map Prod.fst⟩

lemma nodup_of_subperm (l₁ l₂ : List String) (h : l₁ <+~ l₂) (hn : l₂.Nodup) :
    l₁.Nodup := by
  obtain ⟨l, hp, hs⟩ := h
  exact hp.nodup_iff.mp (hn.sublist hs)

lemma jaccardTS_nonneg (tA tB : List Token) : 0 ≤ jaccardTS tA tB := by
  unfold jaccardTS
  split
  · exact div_nonneg (Nat.cast_nonneg _) (Nat.cast_nonneg _)
  · exact le_refl 0

lemma calculateStringSimilarity_nonneg (a b : String) :
    0 ≤ calculateStringSimilarity a b := by
  have hj := jaccardTS_nonneg (tokenize a) (tokenize b)
  unfold calculateStringSimilarity
  split
  · exact zero_le_one
  · split
    · split
      · split
        · norm_num
        · exact hj
      · exact hj
    · exact hj

lemma foldl_min_le_init (c : String) (l : List Scored) (a : ℚ) :
    l.foldl (fun m sel =>
      let s := calculateStringSimilarity c sel.1
      if s < m then s else m) a ≤ a := by
  induction l generalizing a with
  | nil => exact le_refl a
  | cons x xs ih =>
    refine le_trans (ih _) ?_
    by_cases h : calculateStringSimilarity c x.1 < a
    · simpa [h] using le_of_lt h
    · simp [h]

lemma foldl_min_nonneg (c : String) (l : List Scored) (a : ℚ) (ha : 0 ≤ a) :
    0 ≤ l.foldl (fun m sel =>
      let s := calculateStringSimilarity c sel.1
      if s < m then s else m) a := by
  induction l generalizing a with
  | nil => exact ha
  | cons x xs ih =>
    apply ih
    by_cases h : calculateStringSimilarity c x.1 < a
    · simpa [h] using calculateStringSimilarity_nonneg c x.1
    · simpa [h] using ha

lemma calculateDiversity_nonneg (c : String) (sel : List Scored) :
    0 ≤ calculateDiversity c sel := by
  unfold calculateDiversity
  split
  · exact zero_le_one
  · have := foldl_min_le_init c sel 1
    unfold minSimTo
    linarith

lemma mmrTotal_gt_neg_one (c : Scored) (sel : List Scored) (hrel : -1 ≤ c.2) :
    -1 < mmrTotal c sel := by
  have hd := calculateDiversity_nonneg c.1 sel
  unfold mmrTotal
  nlinarith

/-- C7 counterexample: with a nonempty input list and requested K = 0,
diversityRanking still emits one element (the loop seeds the selection
before checking the bound), so its length is 1 rather than
min(0, number of inputs) = 0. -/
theorem c7_counterexample :
    diversityRanking [("x", 1)] 0 = ["x"]
    ∧ (diversityRanking [("x", 1)] 0).length ≠ min 0 ([(("x" : String), (1 : ℚ))].length) := by
  have h : diversityRanking [("x", 1)] 0 = ["x"] := by
    simp [diversityRanking, selectLoop]
  exact ⟨h, by rw [h]; decide⟩

/-- C7 amended: for requested K at least 1, a nonempty input sorted by
relevance descending whose phrases are distinct, the reranker output has
length min(K, number of inputs), contains no duplicates, and starts with
the phrase of the input head, which maximizes relevance. -/
theorem c7_amended (results : List Scored) (K : ℕ) (hK : 1 ≤ K) (hne : results ≠ [])
    (hsorted : List.Sorted descOrder results)
    (hnodup : (results.map Prod.fst).Nodup) :
    (diversityRanking results K).length = min K results.length
    ∧ (diversityRanking results K).Nodup
    ∧ (diversityRanking results K).head? = some ((results.headD ("", 0)).1)
    ∧ ∀ r ∈ results, r.2 ≤ (results.headD ("", 0)).2 := by
  obtain ⟨r0, rest, rfl⟩ : ∃ r0 rest, results = r0 :: rest := by
    cases results with
    | nil => exact absurd rfl hne
    | cons a l => exact ⟨a, l, rfl⟩
  have hmax : ∀ r ∈ r0 :: rest, r.2 ≤ ((r0 :: rest).headD ("", 0)).2 := by
    intro r hr
    rcases List.mem_cons.mp hr with h | h
    · exact h ▸ le_refl _
    · exact (List.sorted_cons.mp hsorted).1 r h
  by_cases hsh : (r0 :: rest).length ≤ K
  · have hred : diversityRanking (r0 :: rest) K = (r0 :: rest).map Prod.fst := by
      rw [diversityRanking, if_pos hsh]
    refine ⟨?_, ?_, ?_, hmax⟩
    · rw [hred, List.length_map]
      exact (Nat.min_eq_right hsh).symm
    · rw [hred]; exact hnodup
    · rw [hred]; simp
  · have hred : diversityRanking (r0 :: rest) K
        = (selectLoop mmrTotal (K - 1) [r0] rest).map Prod.fst := by
      rw [diversityRanking, if_neg hsh]
    have hKlen : K ≤ rest.length := by
      have := lt_of_not_le hsh
      simp at this
      omega
    refine ⟨?_, ?_, ?_, hmax⟩
    · rw [hred, List.length_map, selectLoop_length]
      have : min (K - 1) rest.length = K - 1 := Nat.min_eq_left (by omega)
      rw [this]
      simp
      omega
    · rw [hred]
      refine nodup_of_subperm _ _ ?_ hnodup
      exact subperm_map_fst _ _ (selectLoop_subperm mmrTotal (K - 1) [r0] rest)
    · obtain ⟨t, ht⟩ := selectLoop_prefix mmrTotal (K - 1) [r0] rest
      rw [hred, ht]
      simp

/-- Witness for c7_amended at a concrete sorted two-element input. -/
theorem c7_amended_witness :
    (1 ≤ 2 ∧ ([(("a" : String), (1 : ℚ)), ("b", 0)] : List Scored) ≠ []
      ∧ List.Sorted descOrder [(("a" : String), (1 : ℚ)), ("b", 0)]
      ∧ (([(("a" : String), (1 : ℚ)), ("b", 0)] : List Scored).map Prod.fst).Nodup)
    ∧ ((diversityRanking [(("a" : String), (1 : ℚ)), ("b", 0)] 2).length
          = min 2 ([(("a" : String), (1 : ℚ)), ("b", 0)] : List Scored).length
        ∧ (diversityRanking [(("a" : String), (1 : ℚ)), ("b", 0)] 2).Nodup
        ∧ (diversityRanking [(("a" : String), (1 : ℚ)), ("b", 0)] 2).head?
          = some ((([(("a" : String), (1 : ℚ)), ("b", 0)] : List Scored).headD ("", 0)).1)
        ∧ ∀ r ∈ ([(("a" : String), (1 : ℚ)), ("b", 0)] : List Scored),
            r.2 ≤ (([(("a" : String), (1 : ℚ)), ("b", 0)] : List Scored).headD ("", 0)).2) := by
  have h1 : List.Sorted descOrder [(("a" : String), (1 : ℚ)), ("b", 0)] := by
    simp [List.sorted_cons, descOrder]
  have h2 : (([(("a" : String), (1 : ℚ)), ("b", 0)] : List Scored).map Prod.fst).Nodup := by
    simp
  exact ⟨⟨by omega, by simp, h1, h2⟩,
    c7_amended [("a", 1), ("b", 0)] 2 (by omega) (by simp) h1 h2⟩

/-- The list of scored candidates used to separate the implemented
objective from the specified one. -/
def c2input : List Scored := [("a x", 1), ("p a x q r", 9/10), ("b y", 6/10)]

/-- Modelled from the spec for comparison only: the maximum similarity
of a candidate to the already-selected set (zero over the empty set). -/
def specMaxSim (c : String) (selected : List Scored) : ℚ :=
  selected.foldl (fun m sel => max m (calculateStringSimilarity c sel.1)) 0

/-- Modelled from the spec for comparison only: the claimed MMR
objective with the default lambda, 0.7 times relevance minus 0.3 times
the maximum similarity to the selected set. -/
def specMmrScore (c : Scored) (selected : List Scored) : ℚ :=
  (7/10) * c.2 - (3/10) * specMaxSim c.1 selected

/-- C2 counterexample: after selecting the top candidate "a x", the
claimed objective (lambda 0.7, maximum-similarity penalty) is uniquely
maximized by "p a x q r", yet diversityRanking picks "b y": the code
weighs relevance and diversity 0.5/0.5 and subtracts the minimum (not
maximum) similarity, so the claimed selection rule is violated. -/
lemma c2_sim1 : calculateStringSimilarity "p a x q r" "a x" = 2/5 := by
  have hp : jaccardParts (tokenize "p a x q r") (tokenize "a x") = (2, 5) := by decide
  have ht1 : tokenize "p a x q r" = [['p'], ['a'], ['x'], ['q'], ['r']] := by decide
  have ht2 : tokenize "a x" = [['a'], ['x']] := by decide
  rw [calculateStringSimilarity, if_neg (by decide : ¬ ("p a x q r" = "a x"))]
  rw [jaccardTS, hp, ht1, ht2]
  norm_num
  decide

lemma c2_sim2 : calculateStringSimilarity "b y" "a x" = 0 := by
  have hp : jaccardParts (tokenize "b y") (tokenize "a x") = (0, 4) := by decide
  have ht1 : tokenize "b y" = [['b'], ['y']] := by decide
  have ht2 : tokenize "a x" = [['a'], ['x']] := by decide
  rw [calculateStringSimilarity, if_neg (by decide : ¬ ("b y" = "a x"))]
  rw [jaccardTS, hp, ht1, ht2]
  norm_num
  decide

lemma c2_total1 : mmrTotal ("p a x q r", 9/10) [("a x", 1)] = 3/4 := by
  rw [mmrTotal, calculateDiversity]
  rw [if_neg (by simp : ¬ (([(("a x" : String), (1 : ℚ))] : List Scored).isEmpty = true))]
  rw [minSimTo]
  simp only [List.foldl]
  rw [c2_sim1]
  norm_num

lemma c2_total2 : mmrTotal ("b y", 6/10) [("a x", 1)] = 4/5 := by
  rw [mmrTotal, calculateDiversity]
  rw [if_neg (by simp : ¬ (([(("a x" : String), (1 : ℚ))] : List Scored).isEmpty = true))]
  rw [minSimTo]
  simp only [List.foldl]
  rw [c2_sim2]
  norm_num

theorem c2_counterexample :
    diversityRanking c2input 2 = ["a x", "b y"]
    ∧ specMmrScore ("p a x q r", 9/10) [("a x", 1)]
        > specMmrScore ("b y", 6/10) [("a x", 1)] := by
  constructor
  · have hd : diversityRanking c2input 2
        = (selectLoop mmrTotal 1 [("a x", 1)]
            [("p a x q r", 9/10), ("b y", 6/10)]).map Prod.fst := by
      rw [c2input, diversityRanking, if_neg (by norm_num)]
    rw [hd, selectLoop, bestIndex, bestLoop, c2_total1,
      if_pos (by norm_num : (-1 : ℚ) < 3/4), bestLoop, c2_total2,
      if_pos (by norm_num : (3 : ℚ)/4 < 4/5), bestLoop]
    simp [selectLoop]
  · rw [specMmrScore, specMmrScore, specMaxSim, specMaxSim]
    simp only [List.foldl]
    rw [c2_sim1, c2_sim2]
    norm_num

/-- C2 amended: at every selection step the reranker picks the earliest
index maximizing 0.5 times relevance plus 0.5 times the diversity term
1 minus the minimum similarity to the already-selected set (lambda is
0.5, and the penalty is the minimum, not maximum, similarity), provided
relevances lie in the cosine range. -/
theorem c2_amended (sel rem : List Scored) (hne : rem ≠ [])
    (hrel : ∀ c ∈ rem, -1 ≤ c.2) :
    ∃ h : bestIndex mmrTotal sel rem < rem.length,
      (∀ k (hk : k < rem.length),
          mmrTotal (rem.get ⟨k, hk⟩) sel
            ≤ mmrTotal (rem.get ⟨bestIndex mmrTotal sel rem, h⟩) sel)
      ∧ ∀ k (hk : k < rem.length), k < bestIndex mmrTotal sel rem →
          mmrTotal (rem.get ⟨k, hk⟩) sel
            < mmrTotal (rem.get ⟨bestIndex mmrTotal sel rem, h⟩) sel :=
  bestIndex_spec mmrTotal sel rem hne
    (fun c hc => mmrTotal_gt_neg_one c sel (hrel c hc))

/-- Witness for c2_amended at the concrete state reached after the first
pick on c2input. -/
theorem c2_amended_witness :
    (([(("p a x q r" : String), (9 : ℚ)/10), ("b y", 6/10)] : List Scored) ≠ []
      ∧ ∀ c ∈ ([(("p a x q r" : String), (9 : ℚ)/10), ("b y", 6/10)] : List Scored),
          -1 ≤ c.2)
    ∧ ∃ h : bestIndex mmrTotal [("a x", 1)]
          [("p a x q r", 9/10), ("b y", 6/10)]
          < ([(("p a x q r" : String), (9 : ℚ)/10), ("b y", 6/10)] : List Scored).length,
        (∀ k (hk : k < ([(("p a x q r" : String), (9 : ℚ)/10), ("b y", 6/10)] : List Scored).length),
            mmrTotal (([(("p a x q r" : String), (9 : ℚ)/10), ("b y", 6/10)] : List Scored).get ⟨k, hk⟩) [("a x", 1)]
              ≤ mmrTotal (([(("p a x q r" : String), (9 : ℚ)/10), ("b y", 6/10)] : List Scored).get
                  ⟨bestIndex mmrTotal [("a x", 1)] [("p a x q r", 9/10), ("b y", 6/10)], h⟩) [("a x", 1)])
        ∧ ∀ k (hk : k < ([(("p a x q r" : String), (9 : ℚ)/10), ("b y", 6/10)] : List Scored).length),
            k < bestIndex mmrTotal [("a x", 1)] [("p a x q r", 9/10), ("b y", 6/10)] →
            mmrTotal (([(("p a x q r" : String), (9 : ℚ)/10), ("b y", 6/10)] : List Scored).get ⟨k, hk⟩) [("a x", 1)]
              < mmrTotal (([(("p a x q r" : String), (9 : ℚ)/10), ("b y", 6/10)] : List Scored).get
                  ⟨bestIndex mmrTotal [("a x", 1)] [("p a x q r", 9/10), ("b y", 6/10)], h⟩) [("a x", 1)] := by
  refine ⟨⟨by simp, ?_⟩, ?_⟩
  · intro c hc
    rcases List.mem_cons.mp hc with h | h
    · rw [h]; norm_num
    · simp at h; rw [h]; norm_num
  · refine c2_amended [("a x", 1)] [("p a x q r", 9/10), ("b y", 6/10)] (by simp) ?_
    intro c hc
    rcases List.mem_cons.mp hc with h | h
    · rw [h]; norm_num
    · simp at h; rw [h]; norm_num

/-- Witness for c10_partial_insert: one good record followed by one of
the wrong dimension. -/
theorem c10_partial_insert_witness :
    ((∀ r ∈ [(⟨"g", [1], []⟩ : VectorRecord)], r.vector.length = 1)
      ∧ (⟨"b", [1, 1], []⟩ : VectorRecord).vector.length ≠ 1
      ∧ (([(⟨"g", [1], []⟩ : VectorRecord)].map VectorRecord.id).Nodup))
    ∧ ((addVectors 1 [] ([⟨"g", [1], []⟩] ++ [⟨"b", [1, 1], []⟩])).error.isSome
      ∧ (addVectors 1 [] ([⟨"g", [1], []⟩] ++ [⟨"b", [1, 1], []⟩])).saved = false
      ∧ ∀ r ∈ [(⟨"g", [1], []⟩ : VectorRecord)],
          (addVectors 1 [] ([⟨"g", [1], []⟩] ++ [⟨"b", [1, 1], []⟩])).state.lookup r.id
            = some (normalizeRecord r)) := by
  refine ⟨⟨by simp, by simp, by simp⟩, ?_⟩
  have h := c10_partial_insert 1 [] [⟨"g", [1], []⟩] ⟨"b", [1, 1], []⟩ []
    (by simp) (by simp) (by simp)
  simpa using h

/-- Array swap guarded by bounds checks, as the Go slice swap inside the
shuffle (always in bounds in the source loop). -/
def aswap (a : Array String) (i j : ℕ) : Array String :=
  if h1 : i < a.size then
    if h2 : j < a.size then a.swap ⟨i, h1⟩ ⟨j, h2⟩ else a
  else a

/-- The downward Fisher-Yates loop of filterRelevantWords: at position
i the draw (modelling rand.Intn(i+1)) selects j in [0, i] and the two
slots are swapped. -/
def fyGo (draws : ℕ → ℕ) : Array String → ℕ → Array String
  | a, 0 => a
  | a, i + 1 => fyGo draws (aswap a (i + 1) (draws (i + 1) % (i + 2))) i

/-- The random shuffle of the tail candidates in filterRelevantWords,
with the stream of random draws passed explicitly. -/
def fisherYates (l : List String) (draws : ℕ → ℕ) : List String :=
  (fyGo draws l.toArray (l.length - 1)).toList

/-- Embedding of DynamicCombinationGenerator.filterRelevantWords: short
lists are returned whole; otherwise the words are scored (the relevance
function stands for calculateKeywordRelevance with its random draws
fixed), sorted descending by the double loop, the top int(0.7*topK)
taken deterministically, and the remainder filled from a Fisher-Yates
shuffle of ALL positions past that cut (the floating-point
int(float64(topK)*0.7) equals 7*topK/10 at the filter sizes in use). -/
def filterRelevantWords (words : List String) (rel : String → ℚ) (draws : ℕ → ℕ)
    (topK : ℕ) : List String :=
  if words.length ≤ topK then words
  else
    let sorted := exchangeSort (words.map (fun w => (w, rel w)))
    let top := (sorted.take (7 * topK / 10)).map Prod.fst
    top ++ (fisherYates ((sorted.drop (7 * topK / 10)).map Prod.fst) draws).take
      (topK - top.length)

lemma aswap_size (a : Array String) (i j : ℕ) : (aswap a i j).size = a.size := by
  unfold aswap
  split
  · split
    · simp
    · rfl
  · rfl

lemma mem_aswap (x : String) (a : Array String) (i j : ℕ)
    (h : x ∈ (aswap a i j).toList) : x ∈ a.toList := by
  unfold aswap at h
  split at h
  · split at h
    · rw [Array.toList_swap] at h
      rcases List.mem_or_eq_of_mem_set h with h2 | h2
      · rcases List.mem_or_eq_of_mem_set h2 with h3 | h3
        · exact h3
        · rw [h3]
          simpa using Array.getElem_mem_toList a _
      · rw [h2]
        simpa using Array.getElem_mem_toList a _
    · exact h
  · exact h

lemma fyGo_size (draws : ℕ → ℕ) (i : ℕ) (a : Array String) :
    (fyGo draws a i).size = a.size := by
  induction i generalizing a with
  | zero => rfl
  | succ i ih => rw [fyGo, ih, aswap_size]

lemma mem_fyGo (draws : ℕ → ℕ) (i : ℕ) (a : Array String) (x : String)
    (h : x ∈ (fyGo draws a i).toList) : x ∈ a.toList := by
  induction i generalizing a with
  | zero => exact h
  | succ i ih => exact mem_aswap x a _ _ (ih _ h)

lemma fisherYates_length (l : List String) (draws : ℕ → ℕ) :
    (fisherYates l draws).length = l.length := by
  unfold fisherYates
  rw [Array.length_toList, fyGo_size]

lemma mem_fisherYates (l : List String) (draws : ℕ → ℕ) (x : String)
    (h : x ∈ fisherYates l draws) : x ∈ l := by
  unfold fisherYates at h
  have := mem_fyGo draws (l.length - 1) l.toArray x h
  simpa using this

/-- The relevance table for the c3 counterexample: strictly decreasing
scores in list order so the double-loop sort is the identity. -/
def c3rel (w : String) : ℚ :=
  if w = "a" then 4 else if w = "b" then 3 else if w = "c" then 2 else 1

/-- C3 counterexample: with four words, K = 3, and the identity shuffle
realization of the random draws, the sampled slot is filled with the
word at sorted position 2 = int(0.7*3) — a position strictly below
K = 3 — whereas the claim says samples come only from positions K
onward (here only position 3, the word "d"). -/
theorem c3_counterexample :
    filterRelevantWords ["a", "b", "c", "d"] c3rel (fun i => i) 3 = ["a", "b", "c"]
    ∧ "c" ∈ (filterRelevantWords ["a", "b", "c", "d"] c3rel (fun i => i) 3).drop 2
    ∧ ¬ "c" ∈ (["a", "b", "c", "d"].drop 3) := by
  have hsort : exchangeSort [("a", 4), ("b", 3), ("c", 2), ("d", 1)]
      = [("a", 4), ("b", 3), ("c", 2), ("d", 1)] := by
    norm_num [exchangeSort, exchangeSortGo, passMax]
  have hfy : fisherYates ["c", "d"] (fun i => i) = ["c", "d"] := by decide
  have hmap : (["a", "b", "c", "d"] : List String).map (fun w => (w, c3rel w))
      = [("a", (4 : ℚ)), ("b", 3), ("c", 2), ("d", 1)] := by
    simp +decide [c3rel]
  have hmain : filterRelevantWords ["a", "b", "c", "d"] c3rel (fun i => i) 3
      = ["a", "b", "c"] := by
    rw [filterRelevantWords, if_neg (by decide : ¬ ((["a", "b", "c", "d"] : List String).length ≤ 3))]
    simp [hmap, hsort, hfy]
  exact ⟨hmain, by rw [hmain]; decide, by decide⟩

/-- C3 amended: when the list is longer than K the generator emits the
top int(0.7*K) words of the descending score order deterministically and
fills the remaining K - int(0.7*K) slots from a random shuffle of the
words at positions int(0.7*K) and beyond of that order (not positions K
and beyond); the output has length K. When the list has at most K words
it is returned unchanged. -/
theorem c3_amended (words : List String) (rel : String → ℚ) (draws : ℕ → ℕ) (K : ℕ) :
    (words.length ≤ K → filterRelevantWords words rel draws K = words)
    ∧ (K < words.length →
        (filterRelevantWords words rel draws K).length = K
        ∧ (filterRelevantWords words rel draws K).take (7 * K / 10)
            = ((exchangeSort (words.map (fun w => (w, rel w)))).take (7 * K / 10)).map Prod.fst
        ∧ ∀ w ∈ (filterRelevantWords words rel draws K).drop (7 * K / 10),
            w ∈ ((exchangeSort (words.map (fun w => (w, rel w)))).drop (7 * K / 10)).map
              Prod.fst) := by
  constructor
  · intro hle
    rw [filterRelevantWords, if_pos hle]
  · intro hlt
    have hne : ¬ words.length ≤ K := not_le.mpr hlt
    have hred : filterRelevantWords words rel draws K
        = ((exchangeSort (words.map (fun w => (w, rel w)))).take (7 * K / 10)).map Prod.fst
          ++ (fisherYates (((exchangeSort (words.map (fun w => (w, rel w)))).drop
              (7 * K / 10)).map Prod.fst) draws).take
            (K - (((exchangeSort (words.map (fun w => (w, rel w)))).take (7 * K / 10)).map
              Prod.fst).length) := by
      rw [filterRelevantWords, if_neg hne]
    have hsortlen : (exchangeSort (words.map (fun w => (w, rel w)))).length = words.length := by
      rw [(exchangeSort_perm _).length_eq, List.length_map]
    have htc : 7 * K / 10 ≤ K := by
      calc 7 * K / 10 ≤ 10 * K / 10 :=
        Nat.div_le_div_right (Nat.mul_le_mul_right K (by norm_num))
      _ = K := by omega
    have htople : (((exchangeSort (words.map (fun w => (w, rel w)))).take (7 * K / 10)).map
        Prod.fst).length = 7 * K / 10 := by
      rw [List.length_map, List.length_take, hsortlen]
      omega
    have hfylen : (fisherYates (((exchangeSort (words.map (fun w => (w, rel w)))).drop
        (7 * K / 10)).map Prod.fst) draws).length = words.length - 7 * K / 10 := by
      rw [fisherYates_length, List.length_map, List.length_drop, hsortlen]
    refine ⟨?_, ?_, ?_⟩
    · rw [hred, List.length_append, htople, List.length_take, hfylen]
      have hmin : min (K - 7 * K / 10) (words.length - 7 * K / 10) = K - 7 * K / 10 :=
        Nat.min_eq_left (Nat.sub_le_sub_right (le_of_lt hlt) _)
      rw [hmin]
      omega
    · rw [hred]
      exact List.take_left' htople
    · intro w hw
      rw [hred, List.drop_left' htople] at hw
      exact mem_fisherYates _ draws w (List.mem_of_mem_take hw)

/-- Witness for c3_amended at the concrete counterexample input. -/
theorem c3_amended_witness :
    (3 < (["a", "b", "c", "d"] : List String).length)
    ∧ ((filterRelevantWords ["a", "b", "c", "d"] c3rel (fun i => i) 3).length = 3
        ∧ (filterRelevantWords ["a", "b", "c", "d"] c3rel (fun i => i) 3).take (7 * 3 / 10)
            = ((exchangeSort ((["a", "b", "c", "d"] : List String).map
                (fun w => (w, c3rel w)))).take (7 * 3 / 10)).map Prod.fst
        ∧ ∀ w ∈ (filterRelevantWords ["a", "b", "c", "d"] c3rel (fun i => i) 3).drop (7 * 3 / 10),
            w ∈ ((exchangeSort ((["a", "b", "c", "d"] : List String).map
                (fun w => (w, c3rel w)))).drop (7 * 3 / 10)).map Prod.fst) :=
  ⟨by decide, (c3_amended ["a", "b", "c", "d"] c3rel (fun i => i) 3).2 (by decide)⟩

/-- Intersection count and union count of the generator-side Jaccard in
selectDiverseCombinations (part of the repository's ML simulation):
intersection counts the selected phrase's tokens present among the
candidate's distinct tokens, the union is the sum of raw token counts
minus the intersection. -/
def p3Parts (c sel : String) : ℕ × ℕ :=
  (((tokenize sel).filter (fun t => decide (t ∈ distinctTokens (tokenize c)))).length,
   (tokenize c).length + (tokenize sel).length
     - ((tokenize sel).filter (fun t => decide (t ∈ distinctTokens (tokenize c)))).length)

/-- The generator-side Jaccard similarity; zero when the union is
empty. -/
def p3Jaccard (c sel : String) : ℚ :=
  if 0 < (p3Parts c sel).2 then ((p3Parts c sel).1 : ℚ) / ((p3Parts c sel).2 : ℚ) else 0

/-- Embedding of calculateDiversityScore: 1 for an empty selection, else
one minus the minimum generator-side Jaccard to a selected phrase. -/
def p3Diversity (c : String) (selected : List Scored) : ℚ :=
  if selected.isEmpty then 1
  else 1 - selected.foldl (fun m sel =>
    let s := p3Jaccard c sel.1
    if s < m then s else m) 1

/-- The per-candidate total of selectDiverseCombinations' inner loop:
similarity times 0.7 plus diversity times 0.3. -/
def p3Score (c : Scored) (selected : List Scored) : ℚ :=
  c.2 * (7/10) + p3Diversity c.1 selected * (3/10)

/-- Embedding of DynamicCombinationGenerator.selectDiverseCombinations:
same greedy shape as the coordinator reranker, with the 0.7/0.3 total. -/
def selectDiverseCombinations (sims : List Scored) (topK : ℕ) : List Scored :=
  if sims.length ≤ topK then sims
  else
    match sims with
    | [] => []
    | r :: rest => selectLoop p3Score (topK - 1) [r] rest

/-- The dynamic-combination response (model.DynamicCombinationResponse
restricted to the fields the coordinator reads). -/
structure DynResponse where
  combinations : List String
  details : List Scored
  topSimilar : List Scored
deriving Repr, DecidableEq

/-- Embedding of steps 5-7 of GenerateDynamicCombinations: sort the
scored pool descending, run the diversity selection for the
combinations and details, and expose the first min(5, pool) sorted
entries as top_similar. The sims argument is the scored candidate pool
produced by step 4 (whose randomized scores are inputs here). -/
def mlGenerate (sims : List Scored) (topK : ℕ) : DynResponse :=
  { combinations := (selectDiverseCombinations (exchangeSort sims) topK).map Prod.fst
  , details := selectDiverseCombinations (exchangeSort sims) topK
  , topSimilar := (exchangeSort sims).take (min 5 (exchangeSort sims).length) }

/-- Embedding of TitleService.GenerateTitles lines 93-104: pass the ML
top_similar through when present; otherwise derive it by sorting the
details by similarity descending and truncating to 5. -/
def deriveTopSimilar (resp : DynResponse) : List Scored :=
  if resp.topSimilar.length = 0 ∧ 0 < resp.details.length then
    (exchangeSort resp.details).take 5
  else resp.topSimilar

lemma exchangeSort_ne_nil (sims : List Scored) (h : sims ≠ []) :
    exchangeSort sims ≠ [] := by
  intro hc
  apply h
  have hlen := (exchangeSort_perm sims).length_eq
  rw [hc] at hlen
  exact List.length_eq_zero.mp hlen.symm

lemma sorted_head_max (l : List Scored) (hs : List.Sorted descOrder l) :
    ∀ x ∈ l, x.2 ≤ (l.headD ("", 0)).2 := by
  cases l with
  | nil => intro x hx; cases hx
  | cons h t =>
    intro x hx
    rcases List.mem_cons.mp hx with hxh | hxt
    · exact hxh ▸ le_refl _
    · exact (List.sorted_cons.mp hs).1 x hxt

lemma head?_take_pos (l : List Scored) (n : ℕ) (hn : 0 < n) :
    (l.take n).head? = l.head? := by
  cases l with
  | nil => simp
  | cons x xs =>
    cases n with
    | zero => exact absurd hn (by simp)
    | succ n => simp

lemma headD_take_pos (l : List Scored) (n : ℕ) (d : Scored) (hn : 0 < n) :
    (l.take n).headD d = l.headD d := by
  cases l with
  | nil => simp
  | cons x xs =>
    cases n with
    | zero => exact absurd hn (by simp)
    | succ n => simp

lemma mem_selectDiverse (sims : List Scored) (topK : ℕ) (d : Scored)
    (hd : d ∈ selectDiverseCombinations sims topK) : d ∈ sims := by
  cases sims with
  | nil =>
    rw [selectDiverseCombinations.eq_def] at hd
    split at hd
    · exact hd
    · simp at hd
  | cons r rest =>
    rw [selectDiverseCombinations.eq_def] at hd
    split at hd
    · exact hd
    · exact (selectLoop_subperm p3Score (topK - 1) [r] rest).subset (by simpa using hd)

/-- C6: in the dynamic path the coordinator's top_similar is the ML
generator's top_similar, namely the first min(5, pool) entries of the
descending-sorted candidate pool before the diversity selection; it is
sorted descending, its head is the pool head, every returned title
(detail) comes from the pool, and its similarity is at most the
top_similar head's. In the legacy path the pool handed to take-5 is the
sorted search result, whose head dominates every member, and the
reranked titles are drawn from the pool's phrases. -/
theorem c6_top_similar :
    (∀ (sims : List Scored) (topK : ℕ), sims ≠ [] →
      deriveTopSimilar (mlGenerate sims topK)
          = (exchangeSort sims).take (min 5 (exchangeSort sims).length)
      ∧ List.Sorted descOrder (deriveTopSimilar (mlGenerate sims topK))
      ∧ (deriveTopSimilar (mlGenerate sims topK)).head? = (exchangeSort sims).head?
      ∧ (∀ d ∈ (mlGenerate sims topK).details, d ∈ sims)
      ∧ ∀ d ∈ (mlGenerate sims topK).details,
          d.2 ≤ ((deriveTopSimilar (mlGenerate sims topK)).headD ("", 0)).2)
    ∧ ∀ (results : List Scored), results ≠ [] → List.Sorted descOrder results →
        List.Sorted descOrder (results.take 5)
        ∧ (results.take 5).head? = results.head?
        ∧ (∀ r ∈ results, r.2 ≤ (results.headD ("", 0)).2)
        ∧ ∀ p ∈ diversityRanking results 3, p ∈ results.map Prod.fst := by
  constructor
  · intro sims topK hne
    have hsne : exchangeSort sims ≠ [] := exchangeSort_ne_nil sims hne
    obtain ⟨h0, t0, hst⟩ : ∃ h0 t0, exchangeSort sims = h0 :: t0 := by
      cases hs : exchangeSort sims with
      | nil => exact absurd hs hsne
      | cons a l => exact ⟨a, l, rfl⟩
    have hn : 0 < (exchangeSort sims).length := by rw [hst]; simp
    have hminpos : 0 < min 5 (exchangeSort sims).length :=
      lt_min_iff.mpr ⟨by norm_num, hn⟩
    have htslen : ((exchangeSort sims).take (min 5 (exchangeSort sims).length)).length ≠ 0 := by
      rw [List.length_take]
      exact Nat.pos_iff_ne_zero.mp (lt_min_iff.mpr ⟨hminpos, hn⟩)
    have hpass : deriveTopSimilar (mlGenerate sims topK)
        = (exchangeSort sims).take (min 5 (exchangeSort sims).length) := by
      rw [deriveTopSimilar]
      rw [if_neg]
      · rfl
      · intro hcon
        exact htslen hcon.1
    have hsorted := exchangeSort_sorted sims
    refine ⟨hpass, ?_, ?_, ?_, ?_⟩
    · rw [hpass]
      exact hsorted.sublist (List.take_sublist _ _)
    · rw [hpass]
      exact head?_take_pos _ _ hminpos
    · intro d hd
      have := mem_selectDiverse (exchangeSort sims) topK d hd
      exact (exchangeSort_perm sims).mem_iff.mp this
    · intro d hd
      have hmem : d ∈ exchangeSort sims := mem_selectDiverse (exchangeSort sims) topK d hd
      have hle := sorted_head_max (exchangeSort sims) hsorted d hmem
      rw [hpass, headD_take_pos _ _ _ hminpos]
      exact hle
  · intro results hne hsorted
    refine ⟨hsorted.sublist (List.take_sublist _ _), ?_,
      sorted_head_max results hsorted, ?_⟩
    · cases results with
      | nil => exact absurd rfl hne
      | cons h t => simp
    · intro p hp
      cases results with
      | nil => exact absurd rfl hne
      | cons r rest =>
        by_cases hsh : (r :: rest).length ≤ 3
        · rw [diversityRanking, if_pos hsh] at hp
          exact hp
        · rw [diversityRanking, if_neg hsh] at hp
          have hsub := subperm_map_fst _ _ (selectLoop_subperm mmrTotal (3 - 1) [r] rest)
          exact hsub.subset hp

/-- Witness for c6_top_similar at a concrete two-element pool. -/
theorem c6_top_similar_witness :
    (([(("u v" : String), (1 : ℚ)), ("w z", 0)] : List Scored) ≠ []
      ∧ List.Sorted descOrder [(("u v" : String), (1 : ℚ)), ("w z", 0)])
    ∧ (deriveTopSimilar (mlGenerate [(("u v" : String), (1 : ℚ)), ("w z", 0)] 1)
          = (exchangeSort [(("u v" : String), (1 : ℚ)), ("w z", 0)]).take
              (min 5 (exchangeSort [(("u v" : String), (1 : ℚ)), ("w z", 0)]).length)
        ∧ List.Sorted descOrder
            (deriveTopSimilar (mlGenerate [(("u v" : String), (1 : ℚ)), ("w z", 0)] 1))
        ∧ (deriveTopSimilar (mlGenerate [(("u v" : String), (1 : ℚ)), ("w z", 0)] 1)).head?
          = (exchangeSort [(("u v" : String), (1 : ℚ)), ("w z", 0)]).head?
        ∧ (∀ d ∈ (mlGenerate [(("u v" : String), (1 : ℚ)), ("w z", 0)] 1).details,
            d ∈ ([(("u v" : String), (1 : ℚ)), ("w z", 0)] : List Scored))
        ∧ ∀ d ∈ (mlGenerate [(("u v" : String), (1 : ℚ)), ("w z", 0)] 1).details,
            d.2 ≤ ((deriveTopSimilar (mlGenerate [(("u v" : String), (1 : ℚ)), ("w z", 0)] 1)).headD
              ("", 0)).2) := by
  have hs : List.Sorted descOrder [(("u v" : String), (1 : ℚ)), ("w z", 0)] := by
    simp [List.sorted_cons, descOrder]
  exact ⟨⟨by simp, hs⟩,
    (c6_top_similar.1) [("u v", 1), ("w z", 0)] 1 (by simp)⟩

/-- The fixed default labels of TitleService.GetRandomTitles. -/
def defaultTitles : List String :=
  ["창의적 혁신가", "열정적 도전자", "섬세한 분석가",
   "적극적 리더", "신중한 전략가", "유연한 커뮤니케이터",
   "끈기있는 실행자", "협력적 팀워커", "논리적 사고자",
   "감성적 기획자", "체계적 관리자", "직관적 문제해결사"]

/-- The index-drawing loop of GetRandomTitles: draw indices modulo 12,
skipping ones already used, until three are picked (fuel bounds the
number of draws; the Go loop draws until success). -/
def grtGo (draws : ℕ → ℕ) : ℕ → ℕ → List ℕ → List ℕ
  | 0, _, picked => picked
  | f + 1, pos, picked =>
    if 3 ≤ picked.length then picked
    else if (draws pos % 12) ∈ picked then grtGo draws f (pos + 1) picked
    else grtGo draws f (pos + 1) (picked ++ [draws pos % 12])

/-- Embedding of TitleService.GetRandomTitles: three distinct random
picks from the twelve fixed default labels. -/
def getRandomTitles (draws : ℕ → ℕ) (fuel : ℕ) : List String :=
  (grtGo draws fuel 0 []).map (fun i => defaultTitles.getD i "")

/-- The coordinator's response (model.GenerateTitlesResponse). -/
structure GenResponse where
  titles : List String
  topSimilar : List Scored
deriving Repr, DecidableEq

/-- Embedding of TitleService.generateTitlesLegacy: embed the text (the
embedder is an oracle argument), search the vector store with top-K 50,
fall back to the default labels when the search comes back empty,
otherwise rerank with diversityRanking to 3 and expose the first up to
5 search entries as top_similar. -/
def generateTitlesLegacy (emb : Except Unit Vec) (dim : ℕ) (store : Store)
    (draws : ℕ → ℕ) (fuel : ℕ) : Except String GenResponse :=
  match emb with
  | .error _ => .error "embedding failed"
  | .ok q =>
    match faissSearch dim (store.map Prod.snd) q 50 with
    | .error e => .error e
    | .ok results =>
      if results.isEmpty then .ok ⟨getRandomTitles draws fuel, []⟩
      else .ok ⟨diversityRanking results 3, results.take 5⟩

/-- Embedding of TitleService.GenerateTitles: reject when the text's
UTF-8 byte length is under 10 (the Go code applies len() to the string),
fall back to the legacy path when the dynamic-combination call errors or
returns no combinations, and otherwise answer from the dynamic response
with the derived top_similar. -/
def generateTitles (dyn : Except Unit DynResponse) (emb : Except Unit Vec) (dim : ℕ)
    (store : Store) (draws : ℕ → ℕ) (fuel : ℕ) (content : String) :
    Except String GenResponse :=
  if content.utf8ByteSize < 10 then .error "too short"
  else
    match dyn with
    | .error _ => generateTitlesLegacy emb dim store draws fuel
    | .ok resp =>
      if resp.combinations.isEmpty then generateTitlesLegacy emb dim store draws fuel
      else .ok ⟨resp.combinations, deriveTopSimilar resp⟩

lemma grtGo_lt_twelve (draws : ℕ → ℕ) :
    ∀ (f pos : ℕ) (picked : List ℕ), (∀ i ∈ picked, i < 12) →
      ∀ i ∈ grtGo draws f pos picked, i < 12 := by
  intro f
  induction f with
  | zero => intro pos picked h i hi; exact h i hi
  | succ f ih =>
    intro pos picked h i hi
    rw [grtGo] at hi
    split at hi
    · exact h i hi
    · split at hi
      · exact ih (pos + 1) picked h i hi
      · refine ih (pos + 1) _ ?_ i hi
        intro x hx
        rcases List.mem_append.mp hx with hx | hx
        · exact h x hx
        · have : x = draws pos % 12 := by simpa using hx
          rw [this]
          exact Nat.mod_lt _ (by norm_num)

lemma getRandomTitles_subset (draws : ℕ → ℕ) (fuel : ℕ) :
    ∀ t ∈ getRandomTitles draws fuel, t ∈ defaultTitles := by
  intro t ht
  obtain ⟨i, hi, rfl⟩ := List.mem_map.mp ht
  have hlt : i < 12 := grtGo_lt_twelve draws fuel 0 [] (by simp) i hi
  have hlen : i < defaultTitles.length := by
    rw [show defaultTitles.length = 12 from rfl]
    exact hlt
  rw [List.getD_eq_getElem defaultTitles "" hlen]
  exact List.getElem_mem hlen

/-- C4: when the dynamic-combination call fails or yields no
combinations (and the text passes the length check), the coordinator
answers from the legacy path: it searches the index with top-K 50 on
the embedded text; a nonempty result is reranked with diversityRanking
to K = 3 with the first up to 5 entries as top_similar, and an empty
result produces default labels without an error. -/
theorem c4_fallback (dyn : Except Unit DynResponse) (emb : Except Unit Vec) (dim : ℕ)
    (store : Store) (draws : ℕ → ℕ) (fuel : ℕ) (content : String) (q : Vec)
    (hlen : 10 ≤ content.utf8ByteSize)
    (hdyn : dyn = Except.error () ∨ ∃ resp, dyn = Except.ok resp ∧ resp.combinations = [])
    (hemb : emb = Except.ok q) (hq : q.length = dim) :
    generateTitles dyn emb dim store draws fuel content
      = generateTitlesLegacy emb dim store draws fuel
    ∧ ∃ results, faissSearch dim (store.map Prod.snd) q 50 = Except.ok results
      ∧ (results = [] →
          generateTitlesLegacy emb dim store draws fuel
            = Except.ok ⟨getRandomTitles draws fuel, []⟩
          ∧ ∀ t ∈ getRandomTitles draws fuel, t ∈ defaultTitles)
      ∧ (results ≠ [] →
          generateTitlesLegacy emb dim store draws fuel
            = Except.ok ⟨diversityRanking results 3, results.take 5⟩) := by
  have hfirst : generateTitles dyn emb dim store draws fuel content
      = generateTitlesLegacy emb dim store draws fuel := by
    rw [generateTitles.eq_def, if_neg (not_lt.mpr hlen)]
    rcases hdyn with h | ⟨resp, hr, hc⟩
    · rw [h]
    · rw [hr]
      simp [hc]
  obtain ⟨out, hout⟩ : ∃ out, faissSearch dim (store.map Prod.snd) q 50 = Except.ok out := by
    rw [faissSearch, if_pos hq]
    exact ⟨_, rfl⟩
  refine ⟨hfirst, out, hout, ?_, ?_⟩
  · intro hempty
    subst hempty
    refine ⟨?_, getRandomTitles_subset draws fuel⟩
    rw [generateTitlesLegacy.eq_def, hemb]
    simp only [hout]
    simp
  · intro hne
    rw [generateTitlesLegacy.eq_def, hemb]
    simp only [hout]
    rw [if_neg (by simpa [List.isEmpty_iff] using hne)]

/-- Witness for c4_fallback: failed dynamic call, empty store, so the
fallback search is empty and default labels are returned. -/
theorem c4_fallback_witness :
    (10 ≤ ("abcdefghij" : String).utf8ByteSize
      ∧ ((Except.error () : Except Unit DynResponse) = Except.error ()
          ∨ ∃ resp, (Except.error () : Except Unit DynResponse) = Except.ok resp
              ∧ resp.combinations = [])
      ∧ ((Except.ok [1] : Except Unit Vec) = Except.ok [1])
      ∧ ([(1 : ℚ)].length = 1))
    ∧ (generateTitles (Except.error ()) (Except.ok [1]) 1 [] (fun i => i) 4 "abcdefghij"
        = generateTitlesLegacy (Except.ok [1]) 1 [] (fun i => i) 4
      ∧ ∃ results, faissSearch 1 (([] : Store).map Prod.snd) [1] 50 = Except.ok results
        ∧ (results = [] →
            generateTitlesLegacy (Except.ok [1]) 1 [] (fun i => i) 4
              = Except.ok ⟨getRandomTitles (fun i => i) 4, []⟩
            ∧ ∀ t ∈ getRandomTitles (fun i => i) 4, t ∈ defaultTitles)
        ∧ (results ≠ [] →
            generateTitlesLegacy (Except.ok [1]) 1 [] (fun i => i) 4
              = Except.ok ⟨diversityRanking results 3, results.take 5⟩)) := by
  refine ⟨⟨by decide, Or.inl rfl, rfl, rfl⟩, ?_⟩
  exact c4_fallback (Except.error ()) (Except.ok [1]) 1 [] (fun i => i) 4 "abcdefghij" [1]
    (by decide) (Or.inl rfl) rfl rfl

/-- Whitespace in the sense of the Go regexp class backslash-s used by
CleanText (space, tab, newline, form feed, carriage return). -/
def isGoWs (c : Char) : Bool :=
  c.toNat = 32 || c.toNat = 9 || c.toNat = 10 || c.toNat = 12 || c.toNat = 13

/-- Replace every maximal whitespace run by a single space, the effect
of CleanText's regexp replacement. -/
def collapseWs : Bool → List Char → List Char
  | _, [] => []
  | prevWs, c :: cs =>
    if isGoWs c then
      if prevWs then collapseWs true cs else ' ' :: collapseWs true cs
    else c :: collapseWs false cs

/-- Whitespace in the sense of Go's unicode.IsSpace, used by
strings.TrimSpace: the White_Space property set (U+0009-U+000D, space,
NEL, NBSP, OGHAM space, U+2000-U+200A, line/paragraph separators,
narrow/medium spaces, ideographic space). -/
def isUnicodeSpace (c : Char) : Bool :=
  (9 ≤ c.toNat && c.toNat ≤ 13) || c.toNat = 32 || c.toNat = 0x85 || c.toNat = 0xA0
  || c.toNat = 0x1680 || (0x2000 ≤ c.toNat && c.toNat ≤ 0x200A)
  || c.toNat = 0x2028 || c.toNat = 0x2029 || c.toNat = 0x202F
  || c.toNat = 0x205F || c.toNat = 0x3000

/-- Embedding of util.CleanText: collapse runs of the regexp whitespace
class to single spaces, then trim every unicode.IsSpace character from
both ends (strings.TrimSpace trims a wider set than the regexp
replaces). -/
def cleanText (s : String) : String :=
  String.mk ((((collapseWs false s.data).dropWhile isUnicodeSpace).reverse.dropWhile
    isUnicodeSpace).reverse)

/-- Outcome of the intake path: handler validation (rune counts 10 and
50000) followed by the service revalidation on the byte length of the
cleaned text. -/
inductive UploadOutcome where
  | accepted
  | rejectedTooShort
  | rejectedTooLong
  | rejectedService
deriving Repr, DecidableEq

/-- Embedding of ResumeHandler.UploadResume composed with
ResumeService.UploadResume: the handler counts runes (len of the rune
slice) against 10 and 50000; the service then recleans the text and
rejects when len(cleanedText) — UTF-8 bytes — is under 10. -/
def uploadOutcome (text : String) : UploadOutcome :=
  if text.length < 10 then .rejectedTooShort
  else if 50000 < text.length then .rejectedTooLong
  else if (cleanText text).utf8ByteSize < 10 then .rejectedService
  else .accepted

/-- C8 counterexample: ten spaces has exactly 10 code points, so the
claim says it is accepted; the handler passes it, but the service cleans
it to the empty string and rejects, so the intake does not accept it. -/
theorem c8_counterexample :
    ("          " : String).length = 10
    ∧ uploadOutcome "          " = UploadOutcome.rejectedService
    ∧ uploadOutcome "          " ≠ UploadOutcome.accepted := by
  exact ⟨by decide, by decide, by decide⟩

/-- C8 amended: 9 code points are rejected by the handler validation and
50001 code points are rejected as too long (413); 10 and 50000 code
points pass the handler and are accepted end to end provided the
whitespace-normalized text keeps at least 10 bytes — an all-whitespace
text of valid rune length is still rejected by the service. -/
theorem c8_amended (t9 t10 t50000 t50001 : String)
    (h9 : t9.length = 9)
    (h10 : t10.length = 10) (h10c : 10 ≤ (cleanText t10).utf8ByteSize)
    (h50000 : t50000.length = 50000) (h50000c : 10 ≤ (cleanText t50000).utf8ByteSize)
    (h50001 : t50001.length = 50001) :
    uploadOutcome t9 = UploadOutcome.rejectedTooShort
    ∧ uploadOutcome t10 = UploadOutcome.accepted
    ∧ uploadOutcome t50000 = UploadOutcome.accepted
    ∧ uploadOutcome t50001 = UploadOutcome.rejectedTooLong := by
  refine ⟨?_, ?_, ?_, ?_⟩
  · rw [uploadOutcome, if_pos (by omega)]
  · rw [uploadOutcome, if_neg (by omega), if_neg (by omega), if_neg (by omega)]
  · rw [uploadOutcome, if_neg (by omega), if_neg (by omega), if_neg (by omega)]
  · rw [uploadOutcome, if_neg (by omega), if_pos (by omega)]

lemma collapseWs_replicate_a (n : ℕ) (b : Bool) :
    collapseWs b (List.replicate n 'a') = List.replicate n 'a' := by
  induction n generalizing b with
  | zero => rfl
  | succ n ih =>
    rw [List.replicate_succ, collapseWs, if_neg (by decide)]
    rw [ih]

lemma dropWhile_isUnicodeSpace_replicate_a (n : ℕ) :
    (List.replicate n 'a').dropWhile isUnicodeSpace = List.replicate n 'a' := by
  cases n with
  | zero => rfl
  | succ n =>
    rw [List.replicate_succ, List.dropWhile_cons_of_neg (by decide)]

lemma cleanText_replicate_a (n : ℕ) :
    cleanText (String.mk (List.replicate n 'a')) = String.mk (List.replicate n 'a') := by
  rw [cleanText]
  show String.mk (((((collapseWs false (List.replicate n 'a')).dropWhile
    isUnicodeSpace).reverse.dropWhile isUnicodeSpace).reverse)) = _
  rw [collapseWs_replicate_a, dropWhile_isUnicodeSpace_replicate_a, List.reverse_replicate,
    dropWhile_isUnicodeSpace_replicate_a, List.reverse_replicate]

lemma utf8Len_replicate_a (n : ℕ) : String.utf8Len (List.replicate n 'a') = n := by
  induction n with
  | zero => rfl
  | succ n ih =>
    rw [List.replicate_succ, String.utf8Len_cons, ih,
      show ('a' : Char).utf8Size = 1 from by decide]

lemma length_mk_replicate (n : ℕ) (c : Char) :
    (String.mk (List.replicate n c)).length = n := by
  show (List.replicate n c).length = n
  exact List.length_replicate n c

/-- Witness for c8_amended with concrete boundary strings. -/
theorem c8_amended_witness :
    (("abcdefghi" : String).length = 9
      ∧ ("abcdefghij" : String).length = 10
      ∧ 10 ≤ (cleanText "abcdefghij").utf8ByteSize
      ∧ (String.mk (List.replicate 50000 'a')).length = 50000
      ∧ 10 ≤ (cleanText (String.mk (List.replicate 50000 'a'))).utf8ByteSize
      ∧ (String.mk (List.replicate 50001 'a')).length = 50001)
    ∧ (uploadOutcome "abcdefghi" = UploadOutcome.rejectedTooShort
      ∧ uploadOutcome "abcdefghij" = UploadOutcome.accepted
      ∧ uploadOutcome (String.mk (List.replicate 50000 'a')) = UploadOutcome.accepted
      ∧ uploadOutcome (String.mk (List.replicate 50001 'a'))
          = UploadOutcome.rejectedTooLong) := by
  have hclean : 10 ≤ (cleanText (String.mk (List.replicate 50000 'a'))).utf8ByteSize := by
    rw [cleanText_replicate_a]
    rw [show (String.mk (List.replicate 50000 'a')).utf8ByteSize
      = String.utf8Len (List.replicate 50000 'a') from rfl]
    rw [utf8Len_replicate_a]
    omega
  refine ⟨⟨by decide, by decide, by decide, length_mk_replicate 50000 'a', hclean,
    length_mk_replicate 50001 'a'⟩, ?_⟩
  exact c8_amended "abcdefghi" "abcdefghij" (String.mk (List.replicate 50000 'a'))
    (String.mk (List.replicate 50001 'a')) (by decide) (by decide) (by decide)
    (length_mk_replicate 50000 'a') hclean (length_mk_replicate 50001 'a')

/-- C9: GenerateTitles checks len(content), the UTF-8 byte length, not
the code-point count: a five-code-point Korean text (15 bytes) slips
past the too-short check and proceeds, while a three-code-point Korean
text (9 bytes) is rejected — the in-code comment promises the same
criterion as the upload validation, which counts runes. -/
theorem c9_bytes_not_codepoints :
    ("한글텍스트" : String).length = 5
    ∧ ¬ ("한글텍스트" : String).utf8ByteSize < 10
    ∧ generateTitles (Except.error ()) (Except.error ()) 1 [] (fun i => i) 1 "한글텍스트"
        ≠ Except.error "too short"
    ∧ ("가나다" : String).length = 3
    ∧ generateTitles (Except.error ()) (Except.error ()) 1 [] (fun i => i) 1 "가나다"
        = Except.error "too short" := by
  have hgo : generateTitles (Except.error ()) (Except.error ()) 1 [] (fun i => i) 1 "한글텍스트"
      = Except.error "embedding failed" := by
    rw [generateTitles.eq_def, if_neg (by decide)]
    rfl
  have hstop : generateTitles (Except.error ()) (Except.error ()) 1 [] (fun i => i) 1 "가나다"
      = Except.error "too short" := by
    rw [generateTitles.eq_def, if_pos (by decide)]
  refine ⟨by decide, by decide, ?_, by decide, hstop⟩
  rw [hgo]
  intro hc
  have : ("embedding failed" : String) = "too short" := by
    injection hc
  exact absurd this (by decide)

end Chuingho
